import Mathlib

/-! Verification development for the diffusionx simulation engine.

This file is a shallow embedding of the engine's core pieces: the error
plumbing (src/error.cppm), the stable-law sampler (src/random/stable.cppm),
the parallel variate generator (include/random/utils.h, parallel_generate),
the parallel Monte Carlo estimator (simulation/basic utils,
parallel_monte_carlo), the moment estimators and the first-passage-time
search (simulation/basic/continuous.cppm).

Modelling conventions:
- C++ doubles are modelled as real numbers; every random draw the code makes
  (a uniform v, an exponential w, or the outcome of one simulate call) is
  passed in explicitly, so each embedded function is a deterministic function
  of its inputs and its draws.
- A worker thread's execution is modelled sequentially over its assigned
  index range; the outcome of the j-th trial (or simulate call) of a parallel
  phase is given by an oracle indexed by j. The output buffer is a list that
  workers update with List.set, mirroring the pre-sized shared vector.
- std::expected<T, Error> becomes Except Error T; std::optional becomes
  Option. The C++ Error struct stores one formatted message; since a real
  number cannot be rendered into a Lean string, the message template and the
  numeric values formatted into it are kept side by side.
-/

open Classical

noncomputable section

namespace DiffusionX

/-- Error values (src/error.cppm): one constructor per factory method of the
C++ Error struct; the String is the message passed to the factory and the
List ℝ holds the numbers std::format would interpolate into it. -/
inductive Error where
  | invalidArgument (msg : String) (args : List ℝ) : Error
  | notImplemented (msg : String) : Error
  | ioError (msg : String) : Error
  | simulationFailed (msg : String) : Error

/-- Result type alias (src/error.cppm): std::expected<T, Error>. -/
abbrev Result (α : Type) := Except Error α

/-- Trajectory data (vec_pair in simulation/basic/utils): the pair of the
time-mark vector and the value vector. -/
abbrev vec_pair := List ℝ × List ℝ

/-! ## Stable distribution sampler (src/random/stable.cppm) -/

/-- Parameter validation of the stable law (stable.cppm, check_parameters):
alpha must lie in (0, 2], then beta in [-1, 1], then sigma must be positive,
checked in that order. -/
def check_parameters (alpha beta sigma : ℝ) : Result Bool :=
  if alpha ≤ 0 ∨ alpha > 2 then
    .error (.invalidArgument "The stable index alpha must be in (0, 2], but got " [alpha])
  else if beta < -1 ∨ beta > 1 then
    .error (.invalidArgument "The skewness parameter beta must be in [-1, 1], but got " [beta])
  else if sigma ≤ 0 then
    .error (.invalidArgument "The scale parameter sigma must be positive, but got " [sigma])
  else
    .ok true

/-- Standard stable sample for alpha ≠ 1 (stable.cppm, sample_standard
overload on (alpha, beta)); v is the Uniform(-pi/2, pi/2) draw and w the
Exponential(1) draw that the code makes internally. -/
def sample_standard (alpha beta v w : ℝ) : ℝ :=
  let half_pi := Real.pi / 2
  let tmp := beta * Real.tan (alpha * half_pi)
  let b := Real.arctan tmp / alpha
  let s := (1 + tmp * tmp) ^ (1 / (2 * alpha))
  let c1 := alpha * Real.sin (v + b) / Real.cos v ^ (1 / alpha)
  let c2 := (Real.cos (v - alpha * (v + b)) / w) ^ ((1 - alpha) / alpha)
  s * c1 * c2

/-- Standard stable sample for alpha = 1 (stable.cppm, sample_standard
overload on beta alone). -/
def sample_standard_one (beta v w : ℝ) : ℝ :=
  let half_pi := Real.pi / 2
  let c1 := (half_pi + beta * v) * Real.tan v
  let tmp := half_pi * w * Real.cos v / (half_pi + beta * v)
  let c2 := Real.log tmp * beta
  2 * (c1 - c2) / Real.pi

/-- Location-scale transform for alpha ≠ 1 (stable.cppm, sample overload
on (alpha, beta, sigma, mu)). -/
def sample (alpha beta sigma mu v w : ℝ) : ℝ :=
  mu + sigma * sample_standard alpha beta v w

/-- Location-scale transform for alpha = 1 (stable.cppm, sample overload
on (beta, sigma, mu)). -/
def sample_one (beta sigma mu v w : ℝ) : ℝ :=
  sigma * sample_standard_one beta v w + mu + 2 * beta * sigma * sigma * Real.log sigma / Real.pi

/-- Scalar stable sampler (stable.cppm, rand_stable): validates, then
dispatches on alpha = 1. -/
def rand_stable (alpha beta sigma mu v w : ℝ) : Result ℝ :=
  match check_parameters alpha beta sigma with
  | .error e => .error e
  | .ok _ =>
    if alpha = 1 then .ok (sample_one beta sigma mu v w)
    else .ok (sample alpha beta sigma mu v w)

/-- The alpha ≠ 1 return value exactly as the specification's sentence writes
it (the numerator is sin(alpha * (v + b))). This definition follows the
spec's words, not the code, and exists only to be compared with the code's
sample/sample_standard. -/
def cms_spec_value (alpha beta sigma mu v w : ℝ) : ℝ :=
  let b := Real.arctan (beta * Real.tan (alpha * (Real.pi / 2))) / alpha
  let s := (1 + beta ^ 2 * Real.tan (alpha * (Real.pi / 2)) ^ 2) ^ (1 / (2 * alpha))
  mu + sigma * s * (Real.sin (alpha * (v + b)) / Real.cos v ^ (1 / alpha)) *
    ((Real.cos (v - alpha * (v + b)) / w) ^ ((1 - alpha) / alpha))

/-! ## Base-engine statistics stubs (simulation/basic/continuous.cppm,
ContinuousProcess default implementations) -/

/-- Base-engine occupation_time (continuous.cppm): always not-implemented. -/
def ContinuousProcess.occupation_time (_domain : ℝ × ℝ) (_duration _time_step : ℝ) : Result ℝ :=
  .error (.notImplemented "occupation_time is not implemented for this process")

/-- Base-engine tamsd (continuous.cppm): always not-implemented. -/
def ContinuousProcess.tamsd (_duration _delta : ℝ) (_quad_order : ℕ) (_time_step : ℝ) : Result ℝ :=
  .error (.notImplemented "tamsd is not implemented for this process")

/-- Base-engine eatamsd (continuous.cppm): always not-implemented. -/
def ContinuousProcess.eatamsd (_duration _delta : ℝ) (_particles : ℕ) (_quad_order : ℤ)
    (_time_step : ℝ) : Result ℝ :=
  .error (.notImplemented "eatamsd is not implemented for this process")

/-! ## Parallel variate generator (include/random/utils.h, parallel_generate) -/

/-- Worker-count fallback: a hardware_concurrency report of zero becomes one
worker (utils.h lines 175-178). -/
def hwThreads (hw : ℕ) : ℕ := if hw = 0 then 1 else hw

/-- Worker count of parallel_generate: capped at n when n is small. -/
def pgNumThreads (n hw : ℕ) : ℕ :=
  if n < hwThreads hw then n else hwThreads hw

/-- Block size of parallel_generate: ceiling division (n + T - 1) / T. -/
def pgBlockSize (n hw : ℕ) : ℕ :=
  (n + pgNumThreads n hw - 1) / pgNumThreads n hw

/-- Start index of worker i's range in parallel_generate. -/
def pgStart (n hw i : ℕ) : ℕ := i * pgBlockSize n hw

/-- End index (exclusive) of worker i's range in parallel_generate:
min(start + block, n). -/
def pgEnd (n hw i : ℕ) : ℕ := min (pgStart n hw i + pgBlockSize n hw) n

/-- The workers parallel_generate actually spawns: none at all when n = 0
(early return before any thread is created), otherwise exactly those whose
range is non-empty (the code's start_index < end_index guard). -/
def pgSpawned (n hw : ℕ) : List ℕ :=
  if n = 0 then []
  else (List.range (pgNumThreads n hw)).filter fun i => pgStart n hw i < pgEnd n hw i

/-- One worker's loop body in parallel_generate: write sampler j into slot j
for k consecutive slots starting at s. -/
def writeRange (sampler : ℕ → α) : ℕ → ℕ → List α → List α
  | 0, _, res => res
  | k + 1, s, res => writeRange sampler k (s + 1) (res.set s (sampler s))

/-- The parallel variate generator (utils.h, parallel_generate): a pre-sized
buffer of default values d that each spawned worker overwrites on its own
index range; the value invocation j produces is sampler j. -/
def parallel_generate (n hw : ℕ) (d : α) (sampler : ℕ → α) : List α :=
  if n = 0 then []
  else
    (List.range (pgNumThreads n hw)).foldl
      (fun res i =>
        if pgStart n hw i < pgEnd n hw i then
          writeRange sampler (pgEnd n hw i - pgStart n hw i) (pgStart n hw i) res
        else res)
      (List.replicate n d)

/-! ## Parallel Monte Carlo estimator (simulation basic utils,
parallel_monte_carlo over a process and a compute function) -/

/-- Worker count of parallel_monte_carlo: capped at particles. -/
def pmcNumThreads (particles hw : ℕ) : ℕ :=
  if particles < hwThreads hw then particles else hwThreads hw

/-- Chunk size of parallel_monte_carlo: floor division particles / T. -/
def pmcChunk (particles hw : ℕ) : ℕ := particles / pmcNumThreads particles hw

/-- Start index of worker i's trial range in parallel_monte_carlo. -/
def pmcStart (particles hw i : ℕ) : ℕ := i * pmcChunk particles hw

/-- End index (exclusive) of worker i's trial range in parallel_monte_carlo:
start + chunk, and the last worker additionally absorbs the remainder. -/
def pmcEnd (particles hw i : ℕ) : ℕ :=
  pmcStart particles hw i + pmcChunk particles hw +
    if i = pmcNumThreads particles hw - 1 then particles % pmcNumThreads particles hw else 0

/-- One worker's loop in parallel_monte_carlo: run k trials starting at
global trial index j, accumulating the sum; the first failing trial is
recorded and the worker returns at once, running no further trial. -/
def runTrials (trial : ℕ → Result ℝ) : ℕ → ℕ → ℝ → Result ℝ
  | 0, _, acc => .ok acc
  | k + 1, j, acc =>
    match trial j with
    | .error e => .error e
    | .ok v => runTrials trial k (j + 1) (acc + v)

/-- What worker i of parallel_monte_carlo leaves behind: its local sum, or
the first error it observed on its range. -/
def workerResult (particles hw : ℕ) (trial : ℕ → Result ℝ) (i : ℕ) : Result ℝ :=
  runTrials trial (pmcEnd particles hw i - pmcStart particles hw i) (pmcStart particles hw i) 0

/-- The post-join error scan of parallel_monte_carlo (the loop over the
success flags): scan k workers starting at index i and return the first
recorded error, in worker order. -/
def firstErrAux (g : ℕ → Result ℝ) : ℕ → ℕ → Option Error
  | 0, _ => none
  | k + 1, i =>
    match g i with
    | .error e => some e
    | .ok _ => firstErrAux g k (i + 1)

/-- The first recorded worker error of parallel_monte_carlo, if any. -/
def firstWorkerError (particles hw : ℕ) (trial : ℕ → Result ℝ) : Option Error :=
  firstErrAux (workerResult particles hw trial) (pmcNumThreads particles hw) 0

/-- The partial_results slot a worker leaves: its local sum on success, the
initial 0.0 when it returned early on an error. -/
def localSum (r : Result ℝ) : ℝ := match r with | .ok v => v | .error _ => 0

/-- The parallel Monte Carlo estimator (parallel_monte_carlo): rejects
particles = 0, otherwise partitions the trials over the workers, fails with
the first recorded worker error, and on success returns the sum of the
per-worker partial results divided by particles. The outcome of the j-th
trial is given by the oracle trial. -/
def parallel_monte_carlo (particles hw : ℕ) (trial : ℕ → Result ℝ) : Result ℝ :=
  if particles = 0 then
    .error (.invalidArgument "The number of particles must be greater than 0" [])
  else
    match firstWorkerError particles hw trial with
    | some e => .error e
    | none =>
      .ok ((∑ i ∈ Finset.range (pmcNumThreads particles hw),
          localSum (workerResult particles hw trial i)) / (particles : ℝ))

/-- Number of trials a worker's loop actually starts before returning: each
started trial invokes the compute function (and hence simulate) exactly
once, the failing one included. -/
def runCount (trial : ℕ → Result ℝ) : ℕ → ℕ → ℕ
  | 0, _ => 0
  | k + 1, j =>
    match trial j with
    | .error _ => 1
    | .ok _ => 1 + runCount trial k (j + 1)

/-- Total number of trials one parallel_monte_carlo call starts across its
workers; zero when particles = 0 (the call returns before spawning). -/
def pmcCallCount (particles hw : ℕ) (trial : ℕ → Result ℝ) : ℕ :=
  if particles = 0 then 0
  else
    ∑ i ∈ Finset.range (pmcNumThreads particles hw),
      runCount trial (pmcEnd particles hw i - pmcStart particles hw i)
        (pmcStart particles hw i)

/-! ## Moment estimators (continuous.cppm, Moment) -/

/-- One raw-moment trial (Moment.raw_moment's compute_func): simulate once,
reject an empty value vector, else return last value to the power order.
The oracle sim gives the outcome of the j-th simulate call of the phase. -/
def raw_moment_trial (sim : ℕ → Result vec_pair) (order : ℤ) (j : ℕ) : Result ℝ :=
  match sim j with
  | .error e => .error e
  | .ok (_, x) =>
    match x with
    | [] => .error (.invalidArgument "Empty trajectory" [])
    | a :: l => .ok ((a :: l).getLast (List.cons_ne_nil a l) ^ order)

/-- One central-moment trial (Moment.central_moment's compute_func): as the
raw trial, but on the deviation from the pre-computed mean. -/
def central_moment_trial (sim : ℕ → Result vec_pair) (mean : ℝ) (order : ℤ) (j : ℕ) :
    Result ℝ :=
  match sim j with
  | .error e => .error e
  | .ok (_, x) =>
    match x with
    | [] => .error (.invalidArgument "Empty trajectory" [])
    | a :: l => .ok (((a :: l).getLast (List.cons_ne_nil a l) - mean) ^ order)

/-- Moment.raw_moment: the Monte Carlo average of last_value ^ order. -/
def raw_moment (particles hw : ℕ) (sim : ℕ → Result vec_pair) (order : ℤ) : Result ℝ :=
  parallel_monte_carlo particles hw (raw_moment_trial sim order)

/-- Moment.central_moment: first a nested raw moment of order 1 with the same
particle count (simulate outcomes sim1), then a second full Monte Carlo pass
over (last - mean) ^ order (simulate outcomes sim2); the nested phase's error
is returned without running the second phase. -/
def central_moment (particles hw : ℕ) (sim1 sim2 : ℕ → Result vec_pair) (order : ℤ) :
    Result ℝ :=
  match raw_moment particles hw sim1 1 with
  | .error e => .error e
  | .ok mean => parallel_monte_carlo particles hw (central_moment_trial sim2 mean order)

/-- Number of simulate calls one raw_moment call performs: one per started
trial. -/
def raw_moment_calls (particles hw : ℕ) (sim : ℕ → Result vec_pair) (order : ℤ) : ℕ :=
  pmcCallCount particles hw (raw_moment_trial sim order)

/-- Number of simulate calls one central_moment call performs: the nested
mean phase's calls, plus the second phase's calls when that phase runs. -/
def central_moment_calls (particles hw : ℕ) (sim1 sim2 : ℕ → Result vec_pair) (order : ℤ) :
    ℕ :=
  raw_moment_calls particles hw sim1 1 +
    match raw_moment particles hw sim1 1 with
    | .error _ => 0
    | .ok mean => pmcCallCount particles hw (central_moment_trial sim2 mean order)

/-! ## First-passage time (continuous.cppm, FirstPassageTime.simulate) -/

/-- The scan inside FirstPassageTime.simulate (the find lambda): index of the
first sample at or outside the closed complement of (a, b), i.e. the first
position p with p ≤ a or p ≥ b. -/
def find_exit (a b : ℝ) : List ℝ → Option ℕ
  | [] => none
  | p :: rest => if p ≤ a ∨ b ≤ p then some 0 else (find_exit a b rest).map (fun i => i + 1)

/-- The doubling search of FirstPassageTime.simulate. The while (true) loop
is modelled with explicit fuel: each recursive step doubles the trial
duration, exactly as the source, and fuel 0 (never reached for sufficient
fuel, since the duration doubles past max_duration) reports a failure. On an
exit found at index idx the source returns Ok(Some(idx)) - the index
converted to double - and after the clamped final simulation it returns
Ok(nullopt) when no exit is found. -/
def fpt_loop (sim : ℝ → ℝ → Result vec_pair) (a b max_duration time_step : ℝ) :
    ℕ → ℝ → Result (Option ℝ)
  | 0, _ => .error (.simulationFailed "loop fuel exhausted")
  | fuel + 1, duration =>
    match sim duration time_step with
    | .error e => .error e
    | .ok (_, x) =>
      match find_exit a b x with
      | some idx => .ok (some (idx : ℝ))
      | none =>
        if duration * 2 > max_duration then
          match sim max_duration time_step with
          | .error e => .error e
          | .ok (_, x2) =>
            match find_exit a b x2 with
            | some idx => .ok (some (idx : ℝ))
            | none => .ok none
        else fpt_loop sim a b max_duration time_step fuel (duration * 2)

/-- FirstPassageTime.simulate: argument validation, then the doubling search
starting from max(max_duration / 10, 10). -/
def fpt_simulate (sim : ℝ → ℝ → Result vec_pair) (a b max_duration time_step : ℝ)
    (fuel : ℕ) : Result (Option ℝ) :=
  if max_duration ≤ 0 then .error (.invalidArgument "max_duration must be positive" [])
  else if time_step ≤ 0 then .error (.invalidArgument "time_step must be positive" [])
  else if max_duration < time_step then
    .error (.invalidArgument "max_duration must be greater than time_step" [])
  else fpt_loop sim a b max_duration time_step fuel (max (max_duration / 10) 10)

end DiffusionX

namespace DiffusionX

/-- C8: rand_stable validates alpha, beta, sigma in that order, failing with
an invalid-argument error that names the offending parameter and its value;
for in-range parameters it returns a sampled value, and mu is never
validated (whether the call succeeds does not depend on mu). -/
theorem rand_stable_validation (alpha beta sigma mu v w : ℝ) :
    ((alpha ≤ 0 ∨ 2 < alpha) →
      rand_stable alpha beta sigma mu v w =
        .error (.invalidArgument "The stable index alpha must be in (0, 2], but got " [alpha])) ∧
    (0 < alpha → alpha ≤ 2 → (beta < -1 ∨ 1 < beta) →
      rand_stable alpha beta sigma mu v w =
        .error (.invalidArgument "The skewness parameter beta must be in [-1, 1], but got "
          [beta])) ∧
    (0 < alpha → alpha ≤ 2 → -1 ≤ beta → beta ≤ 1 → sigma ≤ 0 →
      rand_stable alpha beta sigma mu v w =
        .error (.invalidArgument "The scale parameter sigma must be positive, but got "
          [sigma])) ∧
    (0 < alpha → alpha ≤ 2 → -1 ≤ beta → beta ≤ 1 → 0 < sigma →
      ∃ x, rand_stable alpha beta sigma mu v w = .ok x) ∧
    (∀ mu2, (∃ x, rand_stable alpha beta sigma mu v w = .ok x) ↔
      ∃ x, rand_stable alpha beta sigma mu2 v w = .ok x) := by
  refine ⟨?_, ?_, ?_, ?_, ?_⟩
  · intro h
    unfold rand_stable check_parameters
    rw [if_pos h]
  · intro h1 h2 h3
    have hnot : ¬(alpha ≤ 0 ∨ alpha > 2) := by push_neg; exact ⟨h1, h2⟩
    unfold rand_stable check_parameters
    rw [if_neg hnot, if_pos h3]
  · intro h1 h2 h3 h4 h5
    have hnot : ¬(alpha ≤ 0 ∨ alpha > 2) := by push_neg; exact ⟨h1, h2⟩
    have hnotb : ¬(beta < -1 ∨ beta > 1) := by push_neg; exact ⟨h3, h4⟩
    unfold rand_stable check_parameters
    rw [if_neg hnot, if_neg hnotb, if_pos h5]
  · intro h1 h2 h3 h4 h5
    have hnot : ¬(alpha ≤ 0 ∨ alpha > 2) := by push_neg; exact ⟨h1, h2⟩
    have hnotb : ¬(beta < -1 ∨ beta > 1) := by push_neg; exact ⟨h3, h4⟩
    have hnots : ¬(sigma ≤ 0) := not_le.mpr h5
    unfold rand_stable check_parameters
    rw [if_neg hnot, if_neg hnotb, if_neg hnots]
    by_cases ha : alpha = 1
    · rw [if_pos ha]; exact ⟨_, rfl⟩
    · rw [if_neg ha]; exact ⟨_, rfl⟩
  · intro mu2
    unfold rand_stable
    rcases hcp : check_parameters alpha beta sigma with e | bb
    · simp
    · by_cases ha : alpha = 1 <;> simp [ha]

/-- C8 witness: the validation theorem applied at concrete parameters
(alpha = 3 out of range; alpha = 2, beta = 0, sigma = 1 in range). -/
theorem rand_stable_validation_witness :
    rand_stable 3 0 1 0 0 1 =
        .error (.invalidArgument "The stable index alpha must be in (0, 2], but got " [3]) ∧
      ∃ x, rand_stable 2 0 1 5 0 1 = .ok x :=
  ⟨(rand_stable_validation 3 0 1 0 0 1).1 (Or.inr (by norm_num)),
    (rand_stable_validation 2 0 1 5 0 1).2.2.2.1 (by norm_num) (by norm_num) (by norm_num)
      (by norm_num) (by norm_num)⟩

/-- C1 (code bug): at alpha = 2, beta = 0, sigma = 1, mu = 0 with draws
v = pi/3 and w = 1/2, the code returns sqrt 6 while the formula the claim
(and the CMS algorithm) states gives sqrt 6 / 2: the source computes
alpha * sin(v + b) where the algorithm requires sin(alpha * (v + b)). -/
theorem rand_stable_not_cms :
    rand_stable 2 0 1 0 (Real.pi / 3) (1 / 2) = .ok (Real.sqrt 6) ∧
      cms_spec_value 2 0 1 0 (Real.pi / 3) (1 / 2) = Real.sqrt 6 / 2 ∧
      Real.sqrt 6 ≠ Real.sqrt 6 / 2 := by
  have h0 : (0:ℝ) * Real.tan (2 * (Real.pi / 2)) = 0 := zero_mul _
  have hstd : sample_standard 2 0 (Real.pi / 3) (1 / 2) = Real.sqrt 6 := by
    simp only [sample_standard, h0, Real.arctan_zero, zero_div, add_zero, mul_zero, zero_mul,
      Real.one_rpow]
    rw [show Real.pi / 3 - 2 * (Real.pi / 3) = -(Real.pi / 3) by ring, Real.cos_neg,
      Real.cos_pi_div_three, Real.sin_pi_div_three,
      div_self (by norm_num : (1:ℝ)/2 ≠ 0), Real.one_rpow, mul_one, one_mul,
      show (2:ℝ) * (Real.sqrt 3 / 2) = Real.sqrt 3 by ring,
      ← Real.sqrt_eq_rpow,
      show ((1:ℝ)/2) = ((2:ℝ))⁻¹ by norm_num,
      Real.sqrt_inv, div_inv_eq_mul, ← Real.sqrt_mul (by norm_num : (0:ℝ) ≤ 3)]
    norm_num
  refine ⟨?_, ?_, ?_⟩
  · have hcp : check_parameters 2 0 1 = .ok true := by
      unfold check_parameters
      rw [if_neg (by norm_num), if_neg (by norm_num), if_neg (by norm_num)]
    unfold rand_stable
    rw [hcp, if_neg (by norm_num)]
    show Except.ok (sample 2 0 1 0 (Real.pi / 3) (1 / 2)) = _
    rw [sample, hstd]
    norm_num
  · simp only [cms_spec_value, h0, Real.arctan_zero, zero_div, add_zero, mul_zero, zero_mul,
      Real.one_rpow, zero_add, show ((0:ℝ))^2 = 0 by norm_num]
    rw [show (2:ℝ) * (Real.pi / 3) = Real.pi - Real.pi / 3 by ring, Real.sin_pi_sub,
      show Real.pi - Real.pi / 3 = Real.pi / 3 + Real.pi / 3 by ring]
    rw [show Real.pi / 3 - (Real.pi / 3 + Real.pi / 3) = -(Real.pi / 3) by ring, Real.cos_neg,
      Real.cos_pi_div_three, Real.sin_pi_div_three,
      div_self (by norm_num : (1:ℝ)/2 ≠ 0), Real.one_rpow, mul_one, one_mul,
      ← Real.sqrt_eq_rpow,
      show ((1:ℝ)/2) = ((2:ℝ))⁻¹ by norm_num,
      Real.sqrt_inv, div_inv_eq_mul]
    rw [show Real.sqrt 3 / 2 * Real.sqrt 2 = Real.sqrt 3 * Real.sqrt 2 / 2 by ring,
      ← Real.sqrt_mul (by norm_num : (0:ℝ) ≤ 3)]
    norm_num
  · have h6 : 0 < Real.sqrt 6 := Real.sqrt_pos.mpr (by norm_num)
    intro heq
    linarith

/-- C9: the base-engine implementations of occupation_time, tamsd and eatamsd
return a not-implemented error for every argument combination and never a
numeric value. -/
theorem base_engine_not_implemented (domain : ℝ × ℝ) (duration delta time_step : ℝ)
    (quad_order particles : ℕ) (quad_order_int : ℤ) :
    ContinuousProcess.occupation_time domain duration time_step =
        .error (.notImplemented "occupation_time is not implemented for this process") ∧
      ContinuousProcess.tamsd duration delta quad_order time_step =
        .error (.notImplemented "tamsd is not implemented for this process") ∧
      ContinuousProcess.eatamsd duration delta particles quad_order_int time_step =
        .error (.notImplemented "eatamsd is not implemented for this process") ∧
      (∀ x : ℝ, ContinuousProcess.occupation_time domain duration time_step ≠ .ok x) ∧
      (∀ x : ℝ, ContinuousProcess.tamsd duration delta quad_order time_step ≠ .ok x) ∧
      (∀ x : ℝ, ContinuousProcess.eatamsd duration delta particles quad_order_int time_step ≠
        .ok x) := by
  refine ⟨rfl, rfl, rfl, ?_, ?_, ?_⟩ <;> intro x h <;> exact Except.noConfusion h

end DiffusionX

namespace DiffusionX

theorem hwThreads_pos (hw : ℕ) : 0 < hwThreads hw := by
  unfold hwThreads; split <;> omega

theorem pmcNumThreads_pos (particles hw : ℕ) (hp : 0 < particles) :
    0 < pmcNumThreads particles hw := by
  have := hwThreads_pos hw
  unfold pmcNumThreads; split <;> omega

theorem pmcNumThreads_le (particles hw : ℕ) :
    pmcNumThreads particles hw ≤ particles := by
  unfold pmcNumThreads; split <;> omega

theorem pmcLen_eq (particles hw i : ℕ) :
    pmcEnd particles hw i - pmcStart particles hw i =
      pmcChunk particles hw +
        if i = pmcNumThreads particles hw - 1 then particles % pmcNumThreads particles hw
        else 0 := by
  unfold pmcEnd pmcStart; split <;> omega

theorem pmcLen_sum (particles hw : ℕ) (hp : 0 < particles) :
    ∑ i ∈ Finset.range (pmcNumThreads particles hw),
      (pmcEnd particles hw i - pmcStart particles hw i) = particles := by
  have hT : 0 < pmcNumThreads particles hw := pmcNumThreads_pos particles hw hp
  calc ∑ i ∈ Finset.range (pmcNumThreads particles hw),
        (pmcEnd particles hw i - pmcStart particles hw i)
      = ∑ i ∈ Finset.range (pmcNumThreads particles hw),
          (pmcChunk particles hw +
            if i = pmcNumThreads particles hw - 1 then particles % pmcNumThreads particles hw
            else 0) := by
        exact Finset.sum_congr rfl fun i _ => pmcLen_eq particles hw i
    _ = pmcNumThreads particles hw * pmcChunk particles hw +
          particles % pmcNumThreads particles hw := by
        rw [Finset.sum_add_distrib, Finset.sum_const, Finset.card_range, smul_eq_mul]
        congr 1
        rw [Finset.sum_ite_eq' (Finset.range (pmcNumThreads particles hw))
          (pmcNumThreads particles hw - 1) (fun _ => particles % pmcNumThreads particles hw)]
        rw [if_pos (Finset.mem_range.mpr (by omega))]
    _ = particles := by
        unfold pmcChunk
        exact Nat.div_add_mod particles (pmcNumThreads particles hw)

theorem runTrials_all_ok (trial : ℕ → Result ℝ) (f : ℕ → ℝ) (k : ℕ) :
    ∀ (s : ℕ) (acc : ℝ), (∀ j, s ≤ j → j < s + k → trial j = .ok (f j)) →
      runTrials trial k s acc = .ok (acc + ∑ m ∈ Finset.range k, f (s + m)) := by
  induction k with
  | zero => intro s acc _; simp [runTrials]
  | succ k ih =>
    intro s acc h
    have h0 : trial s = .ok (f s) := h s le_rfl (by omega)
    unfold runTrials
    rw [h0]
    show runTrials trial k (s + 1) (acc + f s) = _
    rw [ih (s + 1) (acc + f s) (fun j hj1 hj2 => h j (by omega) (by omega))]
    have hsum : ∑ m ∈ Finset.range (k + 1), f (s + m) =
        f s + ∑ m ∈ Finset.range k, f (s + 1 + m) := by
      rw [Finset.sum_range_succ']
      have h1 : ∀ m ∈ Finset.range k, f (s + (m + 1)) = f (s + 1 + m) :=
        fun m _ => by rw [show s + (m + 1) = s + 1 + m by ring]
      rw [Finset.sum_congr rfl h1, add_comm]
      norm_num
    rw [hsum, ← add_assoc]

end DiffusionX

namespace DiffusionX

theorem runTrials_first_error (trial : ℕ → Result ℝ) (e : Error) (k : ℕ) :
    ∀ (s j0 : ℕ) (acc : ℝ), s ≤ j0 → j0 < s + k →
      (∀ j, s ≤ j → j < j0 → ∃ v, trial j = .ok v) → trial j0 = .error e →
      runTrials trial k s acc = .error e := by
  induction k with
  | zero => intro s j0 acc h1 h2 _ _; omega
  | succ k ih =>
    intro s j0 acc h1 h2 hpre herr
    unfold runTrials
    by_cases hs : j0 = s
    · subst hs; rw [herr]
    · obtain ⟨v, hv⟩ := hpre s le_rfl (by omega)
      rw [hv]
      show runTrials trial k (s + 1) (acc + v) = .error e
      exact ih (s + 1) j0 (acc + v) (by omega) (by omega)
        (fun j hj1 hj2 => hpre j (by omega) hj2) herr

theorem runTrials_ok_forall (trial : ℕ → Result ℝ) (k : ℕ) :
    ∀ (s : ℕ) (acc x : ℝ), runTrials trial k s acc = .ok x →
      ∀ j, s ≤ j → j < s + k → ∃ v, trial j = .ok v := by
  induction k with
  | zero => intro s acc x _ j h1 h2; omega
  | succ k ih =>
    intro s acc x hok j h1 h2
    unfold runTrials at hok
    rcases htr : trial s with e | v
    · rw [htr] at hok; exact absurd hok (by simp)
    · rw [htr] at hok
      by_cases hj : j = s
      · exact ⟨v, hj ▸ htr⟩
      · exact ih (s + 1) (acc + v) x hok j (by omega) (by omega)

theorem runCount_of_all_ok (trial : ℕ → Result ℝ) (k : ℕ) :
    ∀ s : ℕ, (∀ j, s ≤ j → j < s + k → ∃ v, trial j = .ok v) →
      runCount trial k s = k := by
  induction k with
  | zero => intro s _; rfl
  | succ k ih =>
    intro s h
    obtain ⟨v, hv⟩ := h s le_rfl (by omega)
    unfold runCount
    rw [hv]
    show 1 + runCount trial k (s + 1) = k + 1
    rw [ih (s + 1) (fun j h1 h2 => h j (by omega) (by omega))]
    omega

theorem firstErrAux_none (g : ℕ → Result ℝ) (k : ℕ) :
    ∀ i : ℕ, (∀ m, m < k → ∃ v, g (i + m) = .ok v) → firstErrAux g k i = none := by
  induction k with
  | zero => intro i _; rfl
  | succ k ih =>
    intro i h
    obtain ⟨v, hv⟩ := h 0 (by omega)
    unfold firstErrAux
    rw [show i + 0 = i from rfl] at hv
    rw [hv]
    exact ih (i + 1) fun m hm => by
      obtain ⟨v2, hv2⟩ := h (m + 1) (by omega)
      exact ⟨v2, by rw [show i + 1 + m = i + (m + 1) by ring]; exact hv2⟩

theorem firstErrAux_none_forall (g : ℕ → Result ℝ) (k : ℕ) :
    ∀ i : ℕ, firstErrAux g k i = none → ∀ m, m < k → ∃ v, g (i + m) = .ok v := by
  induction k with
  | zero => intro i _ m hm; omega
  | succ k ih =>
    intro i hnone m hm
    unfold firstErrAux at hnone
    rcases hg : g i with e | v
    · rw [hg] at hnone; exact absurd hnone (by simp)
    · rw [hg] at hnone
      by_cases hm0 : m = 0
      · exact ⟨v, by rw [hm0, Nat.add_zero]; exact hg⟩
      · obtain ⟨v2, hv2⟩ := ih (i + 1) hnone (m - 1) (by omega)
        exact ⟨v2, by rw [show i + m = i + 1 + (m - 1) by omega]; exact hv2⟩

theorem firstErrAux_first (g : ℕ → Result ℝ) (e : Error) (k : ℕ) :
    ∀ (i m0 : ℕ), m0 < k → g (i + m0) = .error e →
      (∀ m, m < m0 → ∃ v, g (i + m) = .ok v) → firstErrAux g k i = some e := by
  induction k with
  | zero => intro i m0 h _ _; omega
  | succ k ih =>
    intro i m0 hm0 herr hpre
    unfold firstErrAux
    by_cases h0 : m0 = 0
    · rw [h0, Nat.add_zero] at herr; rw [herr]
    · obtain ⟨v, hv⟩ := hpre 0 (by omega)
      rw [Nat.add_zero] at hv
      rw [hv]
      exact ih (i + 1) (m0 - 1) (by omega)
        (by rw [show i + 1 + (m0 - 1) = i + m0 by omega]; exact herr)
        (fun m hm => by
          obtain ⟨v2, hv2⟩ := hpre (m + 1) (by omega)
          exact ⟨v2, by rw [show i + 1 + m = i + (m + 1) by ring]; exact hv2⟩)

end DiffusionX

namespace DiffusionX

theorem writeRange_length {α : Type} (f : ℕ → α) (k : ℕ) :
    ∀ (s : ℕ) (res : List α), (writeRange f k s res).length = res.length := by
  induction k with
  | zero => intro s res; rfl
  | succ k ih =>
    intro s res
    unfold writeRange
    rw [ih (s + 1) (res.set s (f s)), List.length_set]

theorem writeRange_getElem {α : Type} (f : ℕ → α) (k : ℕ) :
    ∀ (s : ℕ) (res : List α) (j : ℕ), s + k ≤ res.length →
      (writeRange f k s res)[j]? = if s ≤ j ∧ j < s + k then some (f j) else res[j]? := by
  induction k with
  | zero =>
    intro s res j _
    rw [if_neg (by omega)]
    rfl
  | succ k ih =>
    intro s res j hlen
    unfold writeRange
    rw [ih (s + 1) (res.set s (f s)) j (by rw [List.length_set]; omega)]
    by_cases h1 : s + 1 ≤ j ∧ j < s + 1 + k
    · rw [if_pos h1, if_pos (by omega)]
    · rw [if_neg h1]
      by_cases h2 : j = s
      · subst h2
        rw [if_pos (by omega)]
        exact List.getElem?_set_self (by omega)
      · rw [if_neg (by omega)]
        exact List.getElem?_set_ne fun h => h2 h.symm

theorem pgNumThreads_pos (n hw : ℕ) (hn : 0 < n) : 0 < pgNumThreads n hw := by
  have := hwThreads_pos hw
  unfold pgNumThreads; split <;> omega

theorem pgNumThreads_le (n hw : ℕ) : pgNumThreads n hw ≤ n := by
  unfold pgNumThreads; split <;> omega

theorem pgBlockSize_pos (n hw : ℕ) (hn : 0 < n) : 0 < pgBlockSize n hw := by
  have hT := pgNumThreads_pos n hw hn
  unfold pgBlockSize
  exact Nat.div_pos (by omega) hT

theorem pg_cover (n hw : ℕ) (hn : 0 < n) : n ≤ pgNumThreads n hw * pgBlockSize n hw := by
  have hT := pgNumThreads_pos n hw hn
  unfold pgBlockSize
  have hdm := Nat.div_add_mod (n + pgNumThreads n hw - 1) (pgNumThreads n hw)
  have hmlt : (n + pgNumThreads n hw - 1) % pgNumThreads n hw < pgNumThreads n hw :=
    Nat.mod_lt _ hT
  omega

theorem pg_foldl_spec {α : Type} (n hw : ℕ) (d : α) (f : ℕ → α) (hn : 0 < n) (k : ℕ)
    (hk : k ≤ pgNumThreads n hw) :
    ((List.range k).foldl
        (fun res i =>
          if pgStart n hw i < pgEnd n hw i then
            writeRange f (pgEnd n hw i - pgStart n hw i) (pgStart n hw i) res
          else res)
        (List.replicate n d)).length = n ∧
      ∀ j, j < n →
        ((List.range k).foldl
            (fun res i =>
              if pgStart n hw i < pgEnd n hw i then
                writeRange f (pgEnd n hw i - pgStart n hw i) (pgStart n hw i) res
              else res)
            (List.replicate n d))[j]? =
          if j < min (k * pgBlockSize n hw) n then some (f j) else some d := by
  have hB := pgBlockSize_pos n hw hn
  induction k with
  | zero =>
    refine ⟨by simp, fun j hj => ?_⟩
    rw [List.range_zero, List.foldl_nil, if_neg (by omega)]
    exact List.getElem?_replicate_of_lt hj
  | succ k ih =>
    obtain ⟨ihlen, ihget⟩ := ih (by omega)
    rw [List.range_succ, List.foldl_append, List.foldl_cons, List.foldl_nil]
    constructor
    · by_cases hw1 : pgStart n hw k < pgEnd n hw k
      · rw [if_pos hw1, writeRange_length, ihlen]
      · rw [if_neg hw1]; exact ihlen
    · intro j hj
      have hkB : (k + 1) * pgBlockSize n hw = k * pgBlockSize n hw + pgBlockSize n hw :=
        Nat.succ_mul k (pgBlockSize n hw)
      by_cases hw1 : pgStart n hw k < pgEnd n hw k
      · rw [if_pos hw1]
        have hse : pgStart n hw k + (pgEnd n hw k - pgStart n hw k) = pgEnd n hw k := by
          unfold pgEnd at hw1 ⊢; omega
        rw [writeRange_getElem f _ _ _ j (by rw [ihlen]; unfold pgEnd at hw1 ⊢; omega)]
        rw [hse]
        have hstart : pgStart n hw k = k * pgBlockSize n hw := rfl
        have hend : pgEnd n hw k = min (k * pgBlockSize n hw + pgBlockSize n hw) n := rfl
        by_cases hin : pgStart n hw k ≤ j ∧ j < pgEnd n hw k
        · rw [if_pos hin, if_pos (by rw [hstart] at hin; rw [hend] at hin; omega)]
        · rw [if_neg hin, ihget j hj]
          rw [hstart, hend] at hin
          by_cases hlt : j < min ((k + 1) * pgBlockSize n hw) n
          · rw [if_pos hlt, if_pos (by omega)]
          · rw [if_neg hlt, if_neg (by omega)]
      · rw [if_neg hw1, ihget j hj]
        have hstart : pgStart n hw k = k * pgBlockSize n hw := rfl
        have hend : pgEnd n hw k = min (k * pgBlockSize n hw + pgBlockSize n hw) n := rfl
        rw [hstart, hend] at hw1
        by_cases hlt : j < min (k * pgBlockSize n hw) n
        · rw [if_pos hlt, if_pos (by omega)]
        · rw [if_neg hlt, if_neg (by omega)]

end DiffusionX

namespace DiffusionX

theorem div_range_unique (B i j : ℕ) (hB : 0 < B) (h1 : i * B ≤ j) (h2 : j < i * B + B) :
    j / B = i := by
  have hle : i ≤ j / B := (Nat.le_div_iff_mul_le hB).mpr h1
  have hlt : j / B < i + 1 := (Nat.div_lt_iff_lt_mul hB).mpr (by rw [Nat.succ_mul]; omega)
  omega

/-- C6: parallel_generate returns exactly n values, slot j holds the value of
exactly one sampler invocation (the per-worker index ranges are pairwise
disjoint and cover the whole index interval), and for n = 0 it returns the
empty sequence without spawning a worker. -/
theorem parallel_generate_partition {α : Type} (n hw : ℕ) (d : α) (f : ℕ → α) :
    (parallel_generate n hw d f).length = n ∧
      (∀ j, j < n → (parallel_generate n hw d f)[j]? = some (f j)) ∧
      (∀ j, j < n →
        ∃! i, i < pgNumThreads n hw ∧ pgStart n hw i ≤ j ∧ j < pgEnd n hw i) ∧
      (n = 0 → parallel_generate n hw d f = [] ∧ pgSpawned n hw = []) := by
  by_cases hn : n = 0
  · subst hn
    refine ⟨?_, ?_, ?_, ?_⟩
    · rw [parallel_generate, if_pos rfl]; rfl
    · intro j hj; omega
    · intro j hj; omega
    · intro _; exact ⟨by rw [parallel_generate, if_pos rfl], by rw [pgSpawned, if_pos rfl]⟩
  · have hn0 : 0 < n := by omega
    have hB := pgBlockSize_pos n hw hn0
    have hT := pgNumThreads_pos n hw hn0
    have hcov := pg_cover n hw hn0
    obtain ⟨hlen, hget⟩ := pg_foldl_spec n hw d f hn0 (pgNumThreads n hw) le_rfl
    have hpg : parallel_generate n hw d f =
        (List.range (pgNumThreads n hw)).foldl
          (fun res i =>
            if pgStart n hw i < pgEnd n hw i then
              writeRange f (pgEnd n hw i - pgStart n hw i) (pgStart n hw i) res
            else res)
          (List.replicate n d) := by
      rw [parallel_generate, if_neg hn]
    refine ⟨by rw [hpg]; exact hlen, ?_, ?_, fun h => absurd h hn⟩
    · intro j hj
      rw [hpg, hget j hj, if_pos (by omega)]
    · intro j hj
      refine ⟨j / pgBlockSize n hw, ⟨?_, ?_, ?_⟩, ?_⟩
      · exact (Nat.div_lt_iff_lt_mul hB).mpr (by omega)
      · exact Nat.div_mul_le_self j (pgBlockSize n hw)
      · have hdm := Nat.div_add_mod j (pgBlockSize n hw)
        have hmod : j % pgBlockSize n hw < pgBlockSize n hw := Nat.mod_lt _ hB
        have hcomm : j / pgBlockSize n hw * pgBlockSize n hw =
            pgBlockSize n hw * (j / pgBlockSize n hw) := Nat.mul_comm _ _
        unfold pgEnd pgStart
        omega
      · intro i hi
        obtain ⟨hiT, his, hie⟩ := hi
        have hie2 : j < pgStart n hw i + pgBlockSize n hw := by
          unfold pgEnd at hie; omega
        exact (div_range_unique (pgBlockSize n hw) i j hB his hie2).symm

/-- C7 counterexample: for n = 10 and 4 hardware threads, parallel_generate
gives worker 0 the range [0, 3) (ceiling-division blocks), not the range
[0, 10 / 4) = [0, 2) the claim's floor-chunk partition prescribes. -/
theorem pg_partition_cex :
    (pgStart 10 4 0, pgEnd 10 4 0) ≠ (0 * (10 / 4), (0 + 1) * (10 / 4)) := by
  decide

theorem pmcEnd_last (particles hw : ℕ) (hp : 0 < particles) :
    pmcEnd particles hw (pmcNumThreads particles hw - 1) = particles := by
  have hT := pmcNumThreads_pos particles hw hp
  rw [pmcEnd, if_pos rfl, pmcStart]
  have hdm := Nat.div_add_mod particles (pmcNumThreads particles hw)
  have hmul : (pmcNumThreads particles hw - 1) * pmcChunk particles hw +
      pmcChunk particles hw = pmcNumThreads particles hw * pmcChunk particles hw := by
    rw [← Nat.succ_mul]
    congr 1
    omega
  unfold pmcChunk at hmul ⊢
  have hcomm : pmcNumThreads particles hw * (particles / pmcNumThreads particles hw) =
      particles / pmcNumThreads particles hw * pmcNumThreads particles hw := Nat.mul_comm _ _
  omega

/-- C7 (amended): the Monte Carlo estimator partitions with chunk =
particles / workers, every non-last worker i getting [i*chunk, (i+1)*chunk)
and the last worker absorbing the remainder up to particles; the variate
generator instead uses ceiling-division blocks, worker i getting
[i*block, min((i+1)*block, n)). -/
theorem partition_schemes (particles n hw i : ℕ) :
    (0 < particles → i < pmcNumThreads particles hw - 1 →
      pmcStart particles hw i = i * pmcChunk particles hw ∧
      pmcEnd particles hw i = (i + 1) * pmcChunk particles hw) ∧
    (0 < particles →
      pmcStart particles hw (pmcNumThreads particles hw - 1) =
        (pmcNumThreads particles hw - 1) * pmcChunk particles hw ∧
      pmcEnd particles hw (pmcNumThreads particles hw - 1) = particles) ∧
    (pgStart n hw i = i * pgBlockSize n hw ∧
      pgEnd n hw i = min (i * pgBlockSize n hw + pgBlockSize n hw) n) := by
  refine ⟨?_, ?_, rfl, rfl⟩
  · intro hp hi
    refine ⟨rfl, ?_⟩
    rw [pmcEnd, if_neg (by omega), pmcStart, Nat.succ_mul]
    omega
  · intro hp
    exact ⟨rfl, pmcEnd_last particles hw hp⟩

end DiffusionX

namespace DiffusionX

theorem pmcEnd_le (particles hw i : ℕ) (hp : 0 < particles)
    (hi : i < pmcNumThreads particles hw) : pmcEnd particles hw i ≤ particles := by
  have hT := pmcNumThreads_pos particles hw hp
  have hdm := Nat.div_add_mod particles (pmcNumThreads particles hw)
  have hmul : (i + 1) * pmcChunk particles hw ≤
      pmcNumThreads particles hw * pmcChunk particles hw :=
    Nat.mul_le_mul_right _ (by omega)
  rw [Nat.succ_mul] at hmul
  unfold pmcEnd pmcStart pmcChunk at *
  by_cases hlast : i = pmcNumThreads particles hw - 1
  · rw [if_pos hlast]
    subst hlast
    have hmul2 : (pmcNumThreads particles hw - 1) * (particles / pmcNumThreads particles hw) +
        particles / pmcNumThreads particles hw =
        pmcNumThreads particles hw * (particles / pmcNumThreads particles hw) := by
      rw [← Nat.succ_mul]
      congr 1
      omega
    omega
  · rw [if_neg hlast]
    omega

theorem pmc_ranges_sum (f : ℕ → ℝ) (particles hw : ℕ) (hp : 0 < particles) :
    ∑ i ∈ Finset.range (pmcNumThreads particles hw),
        ∑ j ∈ Finset.Ico (pmcStart particles hw i) (pmcEnd particles hw i), f j =
      ∑ j ∈ Finset.range particles, f j := by
  have hT := pmcNumThreads_pos particles hw hp
  have hdm := Nat.div_add_mod particles (pmcNumThreads particles hw)
  have aux : ∀ k, k ≤ pmcNumThreads particles hw - 1 →
      ∑ i ∈ Finset.range k,
          ∑ j ∈ Finset.Ico (pmcStart particles hw i) (pmcEnd particles hw i), f j =
        ∑ j ∈ Finset.Ico 0 (k * pmcChunk particles hw), f j := by
    intro k
    induction k with
    | zero => intro _; simp
    | succ k ih =>
      intro hk
      rw [Finset.sum_range_succ, ih (by omega)]
      have hend : pmcEnd particles hw k = (k + 1) * pmcChunk particles hw := by
        rw [pmcEnd, if_neg (by omega), pmcStart, Nat.succ_mul]
        omega
      have hstart : pmcStart particles hw k = k * pmcChunk particles hw := rfl
      rw [hstart, hend]
      exact Finset.sum_Ico_consecutive f (Nat.zero_le _)
        (by rw [Nat.succ_mul]; omega)
  have hsplit := Finset.sum_range_succ
    (fun i => ∑ j ∈ Finset.Ico (pmcStart particles hw i) (pmcEnd particles hw i), f j)
    (pmcNumThreads particles hw - 1)
  have hT1 : pmcNumThreads particles hw - 1 + 1 = pmcNumThreads particles hw := by omega
  rw [hT1] at hsplit
  rw [hsplit, aux (pmcNumThreads particles hw - 1) le_rfl]
  have hendlast : pmcEnd particles hw (pmcNumThreads particles hw - 1) = particles :=
    pmcEnd_last particles hw hp
  have hstartlast : pmcStart particles hw (pmcNumThreads particles hw - 1) =
      (pmcNumThreads particles hw - 1) * pmcChunk particles hw := rfl
  rw [hendlast, hstartlast]
  rw [Finset.sum_Ico_consecutive f (Nat.zero_le _)
    (by
      have := pmcEnd_le particles hw (pmcNumThreads particles hw - 1) hp (by omega)
      rw [hendlast] at this
      have h2 : (pmcNumThreads particles hw - 1) * pmcChunk particles hw ≤
          pmcEnd particles hw (pmcNumThreads particles hw - 1) := by
        rw [pmcEnd, if_pos rfl]
        omega
      omega)]
  rw [Finset.range_eq_Ico]

end DiffusionX

namespace DiffusionX

theorem pmcStart_le_end (particles hw i : ℕ) :
    pmcStart particles hw i ≤ pmcEnd particles hw i := by
  unfold pmcEnd; omega

theorem workerResult_all_ok (particles hw : ℕ) (trial : ℕ → Result ℝ) (f : ℕ → ℝ)
    (hp : 0 < particles) (hall : ∀ j, j < particles → trial j = .ok (f j))
    (i : ℕ) (hi : i < pmcNumThreads particles hw) :
    workerResult particles hw trial i =
      .ok (∑ j ∈ Finset.Ico (pmcStart particles hw i) (pmcEnd particles hw i), f j) := by
  have hle := pmcEnd_le particles hw i hp hi
  have hse := pmcStart_le_end particles hw i
  rw [workerResult, runTrials_all_ok trial f _ _ _
    (fun j hj1 hj2 => hall j (by omega)), zero_add]
  congr 1
  rw [Finset.sum_Ico_eq_sum_range]

/-- C3 (amended): parallel_monte_carlo fails immediately with the
invalid-argument error when particles = 0; when particles > 0 and every
trial succeeds, it returns the sum of the per-worker local sums divided by
particles, which is the plain arithmetic mean of all particles trial
values. (Trial failures are propagated as-is and can themselves be
invalid-argument errors, so failing with invalid-argument does not imply
particles = 0.) -/
theorem parallel_monte_carlo_mean (particles hw : ℕ) (trial : ℕ → Result ℝ) (f : ℕ → ℝ) :
    (particles = 0 →
      parallel_monte_carlo particles hw trial =
        .error (.invalidArgument "The number of particles must be greater than 0" [])) ∧
    (0 < particles → (∀ j, j < particles → trial j = .ok (f j)) →
      parallel_monte_carlo particles hw trial =
        .ok ((∑ i ∈ Finset.range (pmcNumThreads particles hw),
            localSum (workerResult particles hw trial i)) / (particles : ℝ)) ∧
      (∑ i ∈ Finset.range (pmcNumThreads particles hw),
          localSum (workerResult particles hw trial i)) =
        ∑ j ∈ Finset.range particles, f j) := by
  constructor
  · intro h
    rw [parallel_monte_carlo, if_pos h]
  · intro hp hall
    have hwr := workerResult_all_ok particles hw trial f hp hall
    have hfe : firstWorkerError particles hw trial = none := by
      rw [firstWorkerError]
      exact firstErrAux_none _ _ 0 fun m hm => ⟨_, by rw [Nat.zero_add]; exact hwr m hm⟩
    constructor
    · rw [parallel_monte_carlo, if_neg (by omega), hfe]
    · calc ∑ i ∈ Finset.range (pmcNumThreads particles hw),
            localSum (workerResult particles hw trial i)
          = ∑ i ∈ Finset.range (pmcNumThreads particles hw),
              ∑ j ∈ Finset.Ico (pmcStart particles hw i) (pmcEnd particles hw i), f j := by
            refine Finset.sum_congr rfl fun i hi => ?_
            rw [hwr i (Finset.mem_range.mp hi), localSum]
        _ = ∑ j ∈ Finset.range particles, f j := pmc_ranges_sum f particles hw hp

/-- C3 counterexample: with particles = 1 and a trial that fails with an
invalid-argument error, parallel_monte_carlo fails with that
invalid-argument error although particles is not 0, so failing with an
invalid-argument error is not equivalent to particles = 0. -/
theorem pmc_invalid_iff_cex :
    parallel_monte_carlo 1 1 (fun _ => .error (.invalidArgument "Empty trajectory" [])) =
        .error (.invalidArgument "Empty trajectory" []) ∧
      (1 : ℕ) ≠ 0 := by
  exact ⟨rfl, by omega⟩

end DiffusionX

namespace DiffusionX

/-- C4: a worker that observes a failing trial records that first error and
runs no further trial of its range (its result does not depend on the trials
after the failing one), and once all workers have joined the estimation
fails with the first recorded error in worker order; no error is swallowed
and no partial average is returned. -/
theorem pmc_error_propagation (particles hw : ℕ) (trial trial2 : ℕ → Result ℝ)
    (i0 j0 : ℕ) (e : Error) :
    (pmcStart particles hw i0 ≤ j0 → j0 < pmcEnd particles hw i0 →
      (∀ j, pmcStart particles hw i0 ≤ j → j < j0 → ∃ v, trial j = .ok v) →
      trial j0 = .error e →
      workerResult particles hw trial i0 = .error e) ∧
    (pmcStart particles hw i0 ≤ j0 → j0 < pmcEnd particles hw i0 →
      (∀ j, pmcStart particles hw i0 ≤ j → j < j0 → ∃ v, trial j = .ok v) →
      trial j0 = .error e →
      (∀ j, pmcStart particles hw i0 ≤ j → j ≤ j0 → trial2 j = trial j) →
      workerResult particles hw trial2 i0 = .error e) ∧
    (0 < particles → i0 < pmcNumThreads particles hw →
      workerResult particles hw trial i0 = .error e →
      (∀ i, i < i0 → ∃ v, workerResult particles hw trial i = .ok v) →
      parallel_monte_carlo particles hw trial = .error e ∧
        ∀ x, parallel_monte_carlo particles hw trial ≠ .ok x) := by
  have hworker : ∀ (tr : ℕ → Result ℝ), pmcStart particles hw i0 ≤ j0 →
      j0 < pmcEnd particles hw i0 →
      (∀ j, pmcStart particles hw i0 ≤ j → j < j0 → ∃ v, tr j = .ok v) →
      tr j0 = .error e → workerResult particles hw tr i0 = .error e := by
    intro tr h1 h2 hpre herr
    have hse := pmcStart_le_end particles hw i0
    exact runTrials_first_error tr e _ _ j0 0 h1 (by omega) hpre herr
  refine ⟨hworker trial, ?_, ?_⟩
  · intro h1 h2 hpre herr hagree
    refine hworker trial2 h1 h2 (fun j hj1 hj2 => ?_) (by rw [hagree j0 h1 le_rfl]; exact herr)
    obtain ⟨v, hv⟩ := hpre j hj1 hj2
    exact ⟨v, by rw [hagree j hj1 (by omega)]; exact hv⟩
  · intro hp hi0 herr hprev
    have hfe : firstWorkerError particles hw trial = some e := by
      rw [firstWorkerError]
      exact firstErrAux_first _ e _ 0 i0 hi0 (by rw [Nat.zero_add]; exact herr)
        fun m hm => by rw [Nat.zero_add]; exact hprev m hm
    constructor
    · rw [parallel_monte_carlo, if_neg (by omega), hfe]
    · intro x
      rw [parallel_monte_carlo, if_neg (by omega), hfe]
      exact fun h => Except.noConfusion h

end DiffusionX

namespace DiffusionX

theorem pmc_ok_callCount (particles hw : ℕ) (trial : ℕ → Result ℝ) (x : ℝ)
    (hok : parallel_monte_carlo particles hw trial = .ok x) :
    pmcCallCount particles hw trial = particles := by
  by_cases hp : particles = 0
  · rw [parallel_monte_carlo, if_pos hp] at hok
    exact absurd hok (by simp)
  · rw [parallel_monte_carlo, if_neg hp] at hok
    rcases hfe : firstWorkerError particles hw trial with _ | e
    · have hall := firstErrAux_none_forall (workerResult particles hw trial)
        (pmcNumThreads particles hw) 0 hfe
      rw [pmcCallCount, if_neg hp]
      calc ∑ i ∈ Finset.range (pmcNumThreads particles hw),
            runCount trial (pmcEnd particles hw i - pmcStart particles hw i)
              (pmcStart particles hw i)
          = ∑ i ∈ Finset.range (pmcNumThreads particles hw),
              (pmcEnd particles hw i - pmcStart particles hw i) := by
            refine Finset.sum_congr rfl fun i hi => ?_
            obtain ⟨v, hv⟩ := hall i (Finset.mem_range.mp hi)
            rw [Nat.zero_add] at hv
            exact runCount_of_all_ok trial _ _
              (runTrials_ok_forall trial _ _ _ v hv)
        _ = particles := pmcLen_sum particles hw (by omega)
    · rw [hfe] at hok
      exact absurd hok (by simp)

/-- C5: a central-moment estimation with particle count P first estimates
the mean by a nested raw moment of order 1 with the same P, then runs P
further trials, so a successful call starts exactly 2 * P simulate calls;
when the nested mean estimation fails, its error is returned and the second
phase performs no simulate call at all. -/
theorem central_moment_cost (particles hw : ℕ) (sim1 sim2 : ℕ → Result vec_pair)
    (order : ℤ) :
    (∀ m, central_moment particles hw sim1 sim2 order = .ok m →
      central_moment_calls particles hw sim1 sim2 order = 2 * particles) ∧
    (∀ e, raw_moment particles hw sim1 1 = .error e →
      central_moment particles hw sim1 sim2 order = .error e ∧
      central_moment_calls particles hw sim1 sim2 order =
        raw_moment_calls particles hw sim1 1) := by
  constructor
  · intro m hok
    rcases h1 : raw_moment particles hw sim1 1 with e | mean
    · rw [central_moment, h1] at hok
      exact absurd hok (by simp)
    · rw [central_moment, h1] at hok
      have hc1 : raw_moment_calls particles hw sim1 1 = particles :=
        pmc_ok_callCount particles hw _ mean h1
      have hc2 : pmcCallCount particles hw (central_moment_trial sim2 mean order) =
          particles := pmc_ok_callCount particles hw _ m hok
      rw [central_moment_calls, h1, hc1]
      show particles + pmcCallCount particles hw (central_moment_trial sim2 mean order) =
        2 * particles
      rw [hc2]
      omega
  · intro e herr
    refine ⟨by rw [central_moment, herr], ?_⟩
    rw [central_moment_calls, herr]
    show raw_moment_calls particles hw sim1 1 + 0 = raw_moment_calls particles hw sim1 1
    omega

end DiffusionX

namespace DiffusionX

/-- C10: when every simulate call succeeds but yields an empty value vector,
each moment trial rejects the trajectory with the invalid-argument error
"Empty trajectory" instead of reading the last element, and both raw_moment
and central_moment fail with that error. -/
theorem moment_empty_trajectory (particles hw : ℕ) (sim sim2 : ℕ → Result vec_pair)
    (order : ℤ) (hp : 0 < particles) (hempty : ∀ j, ∃ t, sim j = .ok (t, [])) :
    (∀ j, raw_moment_trial sim order j =
      .error (.invalidArgument "Empty trajectory" [])) ∧
    (∀ mean j, central_moment_trial sim mean order j =
      .error (.invalidArgument "Empty trajectory" [])) ∧
    raw_moment particles hw sim order = .error (.invalidArgument "Empty trajectory" []) ∧
    central_moment particles hw sim sim2 order =
      .error (.invalidArgument "Empty trajectory" []) := by
  have htrial : ∀ (ord : ℤ) (j : ℕ), raw_moment_trial sim ord j =
      .error (.invalidArgument "Empty trajectory" []) := by
    intro ord j
    obtain ⟨t, ht⟩ := hempty j
    simp only [raw_moment_trial, ht]
  have hctrial : ∀ (mean : ℝ) (j : ℕ), central_moment_trial sim mean order j =
      .error (.invalidArgument "Empty trajectory" []) := by
    intro mean j
    obtain ⟨t, ht⟩ := hempty j
    simp only [central_moment_trial, ht]
  have hchunk : 0 < pmcChunk particles hw :=
    Nat.div_pos (pmcNumThreads_le particles hw) (pmcNumThreads_pos particles hw hp)
  have hlen : pmcStart particles hw 0 < pmcEnd particles hw 0 := by
    unfold pmcEnd; split <;> omega
  have hraw : ∀ ord : ℤ, raw_moment particles hw sim ord =
      .error (.invalidArgument "Empty trajectory" []) := by
    intro ord
    have hw0 : workerResult particles hw (raw_moment_trial sim ord) 0 =
        .error (.invalidArgument "Empty trajectory" []) :=
      runTrials_first_error _ _ _ _ (pmcStart particles hw 0) 0 le_rfl (by omega)
        (fun j hj1 hj2 => absurd (lt_of_le_of_lt hj1 hj2) (lt_irrefl _)) (htrial ord _)
    have hfe : firstWorkerError particles hw (raw_moment_trial sim ord) =
        some (.invalidArgument "Empty trajectory" []) := by
      rw [firstWorkerError]
      exact firstErrAux_first _ _ _ 0 0 (pmcNumThreads_pos particles hw hp)
        (by rw [Nat.add_zero]; exact hw0) (fun m hm => by omega)
    rw [raw_moment, parallel_monte_carlo, if_neg (by omega), hfe]
  refine ⟨htrial order, hctrial, hraw order, ?_⟩
  rw [central_moment, hraw 1]

/-- C10 witness: a process whose trajectories always have empty value
vectors makes raw_moment fail with the "Empty trajectory" invalid-argument
error at particles = 1. -/
theorem moment_empty_trajectory_witness :
    raw_moment 1 1 (fun _ => .ok ([(0:ℝ)], [])) 2 =
      .error (.invalidArgument "Empty trajectory" []) :=
  (moment_empty_trajectory 1 1 (fun _ => .ok ([(0:ℝ)], []))
    (fun _ => .ok ([(0:ℝ)], [])) 2 (by omega) (fun _ => ⟨[(0:ℝ)], rfl⟩)).2.2.1

end DiffusionX

namespace DiffusionX

/-- C2 (code bug): a process constantly yielding the trajectory with time
marks (0, 0.01, 0.02) and values (0.5, 0.5, 5) first leaves the domain
(0, 1) at sample index 2, whose time mark is 0.02; the source returns the
index as the passage time, Ok(Some(2)), for every sufficient fuel, although
the time mark of that sample is 0.02 and 2 is not 0.02. -/
theorem fpt_returns_index :
    (∀ fuel : ℕ,
      fpt_simulate (fun _ _ => .ok ([0, 1/100, 2/100], [1/2, 1/2, 5])) 0 1 1000 (1/100)
        (fuel + 1) = .ok (some 2)) ∧
    ([(0:ℝ), 1/100, 2/100] : List ℝ).getD 2 0 = 2/100 ∧
    (2 : ℝ) ≠ 2/100 := by
  have hfind : find_exit 0 1 [1/2, 1/2, 5] = some 2 := by
    rw [find_exit, if_neg (by norm_num), find_exit, if_neg (by norm_num), find_exit,
      if_pos (by norm_num)]
    rfl
  refine ⟨?_, by norm_num, by norm_num⟩
  intro fuel
  rw [fpt_simulate, if_neg (by norm_num), if_neg (by norm_num), if_neg (by norm_num), fpt_loop]
  show (match find_exit 0 1 [1/2, 1/2, 5] with
    | some idx => (.ok (some (idx : ℝ)) : Result (Option ℝ))
    | none =>
      if max ((1000:ℝ) / 10) 10 * 2 > 1000 then
        match find_exit 0 1 [1/2, 1/2, 5] with
        | some idx => .ok (some (idx : ℝ))
        | none => .ok none
      else fpt_loop (fun _ _ => .ok ([0, 1/100, 2/100], [1/2, 1/2, 5])) 0 1 1000 (1/100) fuel
        (max ((1000:ℝ) / 10) 10 * 2)) = .ok (some 2)
  rw [hfind]
  norm_num

end DiffusionX

namespace DiffusionX

/-- C3 witness: two trials both yielding 3 give the local-sum average, and
the total equals the sum of the two trial values. -/
theorem parallel_monte_carlo_mean_witness :
    parallel_monte_carlo 2 1 (fun _ => .ok 3) =
        .ok ((∑ i ∈ Finset.range (pmcNumThreads 2 1),
          localSum (workerResult 2 1 (fun _ => .ok 3) i)) / (2 : ℝ)) ∧
      (∑ i ∈ Finset.range (pmcNumThreads 2 1),
          localSum (workerResult 2 1 (fun _ => .ok 3) i)) =
        ∑ _j ∈ Finset.range 2, (3 : ℝ) :=
  (parallel_monte_carlo_mean 2 1 (fun _ => .ok 3) (fun _ => 3)).2 (by omega)
    (fun _ _ => rfl)

/-- C4 witness: a single always-failing trial makes worker 0 record the
error and the estimation fail with it. -/
theorem pmc_error_propagation_witness :
    workerResult 1 1 (fun _ => .error (.notImplemented "x")) 0 =
        .error (.notImplemented "x") ∧
      parallel_monte_carlo 1 1 (fun _ => .error (.notImplemented "x")) =
        .error (.notImplemented "x") :=
  have h := pmc_error_propagation 1 1 (fun _ => .error (.notImplemented "x"))
    (fun _ => .error (.notImplemented "x")) 0 0 (.notImplemented "x")
  have hw0 := h.1 (by decide) (by decide)
    (fun j h1 h2 => absurd (lt_of_le_of_lt h1 h2) (lt_irrefl _)) rfl
  ⟨hw0, (h.2.2 (by omega) (by decide) hw0 (fun i hi => absurd hi (by omega))).1⟩

/-- C5 witness: at particle count 1 with one-sample trajectories, a
successful central-moment estimation starts exactly 2 simulate calls, and
with an always-failing first phase its error is returned with no second
phase call. -/
theorem central_moment_cost_witness :
    central_moment_calls 1 1 (fun _ => .ok ([(0:ℝ)], [1])) (fun _ => .ok ([(0:ℝ)], [1])) 2 =
        2 * 1 ∧
      central_moment 1 1 (fun _ => .error (.notImplemented "x"))
          (fun _ => .ok ([(0:ℝ)], [1])) 2 =
        .error (.notImplemented "x") := by
  constructor
  · obtain ⟨m, hm⟩ : ∃ m, central_moment 1 1 (fun _ => .ok ([(0:ℝ)], [1]))
        (fun _ => .ok ([(0:ℝ)], [1])) 2 = .ok m := ⟨_, rfl⟩
    exact (central_moment_cost 1 1 (fun _ => .ok ([(0:ℝ)], [1]))
      (fun _ => .ok ([(0:ℝ)], [1])) 2).1 m hm
  · exact ((central_moment_cost 1 1 (fun _ => .error (.notImplemented "x"))
      (fun _ => .ok ([(0:ℝ)], [1])) 2).2 (.notImplemented "x") rfl).1

end DiffusionX
